import Mathlib

/-!
Shallow embedding of the `rbig` rational number library.

Big integers (`UBig`, `IBig` from the external `ibig` crate) are modelled as
`Nat` and `Int`.  Each definition below mirrors one function of the source:
`src/lib.rs` (the `RBig` type, its comparisons, arithmetic and rounding),
`src/util.rs` (`Pair`, `LogicalSignum`, the binary `gcd`) and
`src/nonzero_ubig.rs` (the `NonZeroUBig` wrapper).
-/

namespace RBigSpec

/-- Sign enum from `src/lib.rs`: `Negative` or `Positive`. -/
inductive Sign where
  | Negative
  | Positive
deriving DecidableEq, Repr

/-- Mirrors `Sign::positive_if`. -/
def Sign.positive_if (b : Bool) : Sign :=
  if b then .Positive else .Negative

/-- Mirrors `Sign::is_positive`. -/
def Sign.is_positive : Sign → Bool
  | .Positive => true
  | .Negative => false

/-- Mirrors `impl Neg for Sign`. -/
def Sign.neg : Sign → Sign
  | .Positive => .Negative
  | .Negative => .Positive

/-- Mirrors `impl Mul for Sign`: `positive_if (self == rhs)`. -/
def Sign.mul (a b : Sign) : Sign :=
  Sign.positive_if (decide (a = b))

/-- Mirrors `Sign::pow`: parity of the exponent decides the sign. -/
def Sign.pow (s : Sign) (exp : Nat) : Sign :=
  match s with
  | .Positive => .Positive
  | .Negative => Sign.positive_if (decide (exp % 2 = 0))

/-- Mirrors `impl Mul<IBig> for Sign`. -/
def Sign.mulInt (s : Sign) (i : Int) : Int :=
  match s with
  | .Positive => i
  | .Negative => -i

/-- The `NonZeroUBig` wrapper from `src/nonzero_ubig.rs`.  The wrapped value is
a plain `Nat`; the non-zero guarantee is an invariant proved about the
operations, exactly as in the source where the inner field is a plain `UBig`. -/
structure NonZeroUBig where
  val : Nat
deriving DecidableEq, Repr

/-- Mirrors `NonZeroUBig::one`. -/
def NonZeroUBig.one : NonZeroUBig := ⟨1⟩

/-- Mirrors `NonZeroUBig::new`: rejects zero. -/
def NonZeroUBig.new (u : Nat) : Option NonZeroUBig :=
  if u ≠ 0 then some ⟨u⟩ else none

/-- Mirrors `NonZeroUBig::get`. -/
def NonZeroUBig.get (n : NonZeroUBig) : Nat := n.val

/-- Mirrors `impl Mul for NonZeroUBig`. -/
def NonZeroUBig.mul (a b : NonZeroUBig) : NonZeroUBig := ⟨a.val * b.val⟩

/-- Mirrors `impl Div<UBig> for NonZeroUBig` (unchecked truncating division). -/
def NonZeroUBig.div (a : NonZeroUBig) (r : Nat) : NonZeroUBig := ⟨a.val / r⟩

/-- Mirrors `impl Add for NonZeroUBig`. -/
def NonZeroUBig.add (a b : NonZeroUBig) : NonZeroUBig := ⟨a.val + b.val⟩

/-- Mirrors `NonZeroUBig::pow`. -/
def NonZeroUBig.pow (a : NonZeroUBig) (e : Nat) : NonZeroUBig := ⟨a.val ^ e⟩

/-- The `Pair` helper from `src/util.rs`. -/
structure Pair (α : Type) where
  fst : α
  snd : α

/-- Mirrors `Pair::fold`. -/
def Pair.fold {α β : Type} (p : Pair α) (f : α → α → β) : β := f p.fst p.snd

/-- The `LogicalSignum` enum from `src/util.rs`, ordered `Neg < Zero < Pos`. -/
inductive LogicalSignum where
  | Neg
  | Zero
  | Pos
deriving DecidableEq, Repr

/-- Rank used to realize the derived `Ord` on `LogicalSignum`
(declaration order `Neg < Zero < Pos`). -/
def LogicalSignum.toNat : LogicalSignum → Nat
  | .Neg => 0
  | .Zero => 1
  | .Pos => 2

/-- Derived `Ord::cmp` on `LogicalSignum`. -/
def LogicalSignum.cmp (a b : LogicalSignum) : Ordering :=
  compare a.toNat b.toNat

/-- The core rational type from `src/lib.rs`:
`sign × numer / denom` with a wrapped (intended non-zero) denominator. -/
structure RBig where
  sign : Sign
  numer : Nat
  denom : NonZeroUBig
deriving DecidableEq, Repr

/-- Mirrors `RBig::new`. -/
def RBig.new (sign : Sign) (numer : Nat) (denom : NonZeroUBig) : RBig :=
  ⟨sign, numer, denom⟩

/-- Mirrors `RBig::from_numer_denom`: sign is the XNOR of the operands' signs,
fails when the denominator is zero. -/
def RBig.from_numer_denom (numer denom : Int) : Option RBig :=
  (NonZeroUBig.new denom.natAbs).map fun d =>
    RBig.new (Sign.positive_if (decide (0 ≤ numer) == decide (0 ≤ denom))) numer.natAbs d

/-- Mirrors `RBig::from_numer_unsigned_denom`. -/
def RBig.from_numer_unsigned_denom (numer : Int) (denom : NonZeroUBig) : RBig :=
  RBig.new (Sign.positive_if (decide (0 ≤ numer))) numer.natAbs denom

/-- Mirrors `impl From<UBig> for RBig`. -/
def RBig.ofUBig (numer : Nat) : RBig :=
  RBig.new .Positive numer NonZeroUBig.one

/-- Mirrors `impl From<IBig> for RBig`. -/
def RBig.ofIBig (numer : Int) : RBig :=
  RBig.new (Sign.positive_if (decide (0 ≤ numer))) numer.natAbs NonZeroUBig.one

/-- Mirrors `RBig::cross_mul_abs`. -/
def RBig.cross_mul_abs (a b : RBig) : Pair Nat :=
  ⟨a.numer * b.denom.get, b.numer * a.denom.get⟩

/-- Mirrors `RBig::cross_mul_signed`. -/
def RBig.cross_mul_signed (a b : RBig) : Pair Int :=
  ⟨a.sign.mulInt (Int.ofNat (a.numer * b.denom.get)),
   b.sign.mulInt (Int.ofNat (b.numer * a.denom.get))⟩

/-- Mirrors `RBig::logical_signum`: a zero numerator is always `Zero`. -/
def RBig.logical_signum (a : RBig) : LogicalSignum :=
  if a.numer = 0 then .Zero
  else match a.sign with
    | .Positive => .Pos
    | .Negative => .Neg

/-- Mirrors `impl PartialEq for RBig`: both numerators zero, or equal signs and
equal cross-multiplication products. -/
def RBig.eq (a b : RBig) : Bool :=
  if a.numer = 0 ∧ b.numer = 0 then true
  else decide (a.sign = b.sign) && (a.cross_mul_abs b).fold (fun x y => decide (x = y))

/-- Mirrors `impl Ord for RBig`: compare `logical_signum` first, then the
cross-multiplication products with plain integer ordering. -/
def RBig.cmp (a b : RBig) : Ordering :=
  (a.logical_signum.cmp b.logical_signum).then ((a.cross_mul_abs b).fold compare)

/-- Mirrors `impl Mul for RBig`. -/
def RBig.mul (a b : RBig) : RBig :=
  ⟨a.sign.mul b.sign, a.numer * b.numer, a.denom.mul b.denom⟩

/-- Mirrors `RBig::unchecked_recip`: swaps numerator and denominator storage.
The checked/asserting wrappers only reach it when `numer ≠ 0`. -/
def RBig.unchecked_recip (a : RBig) : RBig :=
  ⟨a.sign, a.denom.val, ⟨a.numer⟩⟩

/-- Mirrors `RBig::checked_recip`. -/
def RBig.checked_recip (a : RBig) : Option RBig :=
  if a.numer = 0 then none else some a.unchecked_recip

/-- Mirrors `RBig::recip`.  The source asserts `numer ≠ 0` (panicking
otherwise) and then performs the unchecked swap; the model is the swap, and
every theorem about it carries the `numer ≠ 0` precondition. -/
def RBig.recip (a : RBig) : RBig := a.unchecked_recip

/-- Mirrors `impl Div for RBig`: `a / b = a * b.recip()`. -/
def RBig.div (a b : RBig) : RBig := a.mul b.recip

/-- Mirrors `impl Add for RBig`: product denominator, signed cross sum,
rebuilt via `from_numer_unsigned_denom`. -/
def RBig.add (a b : RBig) : RBig :=
  let denom := a.denom.mul b.denom
  let numer := (a.cross_mul_signed b).fold (fun x y => x + y)
  RBig.from_numer_unsigned_denom numer denom

/-- Mirrors `impl Sub for RBig`. -/
def RBig.sub (a b : RBig) : RBig :=
  let denom := a.denom.mul b.denom
  let numer := (a.cross_mul_signed b).fold (fun x y => x - y)
  RBig.from_numer_unsigned_denom numer denom

/-- Mirrors `impl Neg for RBig`. -/
def RBig.neg (a : RBig) : RBig := ⟨a.sign.neg, a.numer, a.denom⟩

/-- Mirrors `RBig::abs`. -/
def RBig.abs (a : RBig) : RBig := ⟨.Positive, a.numer, a.denom⟩

/-- Mirrors `impl AddAssign for RBig` (state-passing form): `delta` is computed
against the original denominator, `self` is rescaled by `rhs.denom`, then the
three-way sign/magnitude branch runs. -/
def RBig.add_assign (a b : RBig) : RBig :=
  let delta := b.numer * a.denom.get
  let numer := a.numer * b.denom.get
  let denom := a.denom.mul b.denom
  let rel_sign := b.sign.mul a.sign
  if rel_sign.is_positive then ⟨a.sign, numer + delta, denom⟩
  else if delta ≤ numer then ⟨a.sign, numer - delta, denom⟩
  else ⟨a.sign.neg, delta - numer, denom⟩

/-- Mirrors `impl SubAssign for RBig`: in-place add of the negation. -/
def RBig.sub_assign (a b : RBig) : RBig := a.add_assign b.neg

/-- Mirrors `impl MulAssign for RBig`. -/
def RBig.mul_assign (a b : RBig) : RBig :=
  ⟨a.sign.mul b.sign, a.numer * b.numer, a.denom.mul b.denom⟩

/-- Mirrors `impl DivAssign for RBig`. -/
def RBig.div_assign (a b : RBig) : RBig := a.mul_assign b.recip

/-- Mirrors `RBig::unsigned_pow`. -/
def RBig.unsigned_pow (a : RBig) (exp : Nat) : RBig :=
  ⟨a.sign.pow exp, a.numer ^ exp, a.denom.pow exp⟩

/-- Mirrors `RBig::signed_pow`: `unsigned_pow |exp|`, then the reciprocal
unless `exp` is strictly positive. -/
def RBig.signed_pow (a : RBig) (exp : Int) : RBig :=
  let res := a.unsigned_pow exp.natAbs
  if 0 < exp then res else res.recip

/-- Mirrors `RBig::is_positive`. -/
def RBig.is_positive (a : RBig) : Bool :=
  decide (a.numer ≠ 0) && a.sign.is_positive

/-- Mirrors `RBig::is_negative`. -/
def RBig.is_negative (a : RBig) : Bool :=
  decide (a.numer ≠ 0) && !a.sign.is_positive

/-- Count of trailing zero bits of a positive number, written with an explicit
structural fuel (the number itself bounds the count).  Models the value inside
`Some` of `UBig::trailing_zeros` from the external `ibig` crate. -/
def tzGo : Nat → Nat → Nat
  | 0, _ => 0
  | fuel + 1, n => if n % 2 = 0 ∧ n ≠ 0 then tzGo fuel (n / 2) + 1 else 0

/-- Models `UBig::trailing_zeros`: `none` exactly on zero. -/
def trailing_zeros (n : Nat) : Option Nat :=
  if n = 0 then none else some (tzGo n n)

theorem tzGo_spec (fuel : Nat) : ∀ n, n ≠ 0 → n ≤ fuel →
    (n / 2 ^ tzGo fuel n) % 2 = 1 ∧ 2 ^ tzGo fuel n * (n / 2 ^ tzGo fuel n) = n := by
  induction fuel with
  | zero => intro n hn hle; omega
  | succ fuel ih =>
    intro n hn hle
    by_cases he : n % 2 = 0
    · have h2 : n / 2 ≠ 0 := by omega
      have hle2 : n / 2 ≤ fuel := by omega
      obtain ⟨ho, hp⟩ := ih (n / 2) h2 hle2
      have ht : tzGo (fuel + 1) n = tzGo fuel (n / 2) + 1 := by
        simp [tzGo, he, hn]
      rw [ht]
      have hdiv : n / 2 ^ (tzGo fuel (n / 2) + 1) = n / 2 / 2 ^ tzGo fuel (n / 2) := by
        rw [Nat.div_div_eq_div_mul, pow_succ]
        ring_nf
      refine ⟨by rw [hdiv]; exact ho, ?_⟩
      rw [hdiv, pow_succ]
      calc 2 ^ tzGo fuel (n / 2) * 2 * (n / 2 / 2 ^ tzGo fuel (n / 2))
          = 2 * (2 ^ tzGo fuel (n / 2) * (n / 2 / 2 ^ tzGo fuel (n / 2))) := by ring
        _ = 2 * (n / 2) := by rw [hp]
        _ = n := by omega
    · have ht : tzGo (fuel + 1) n = 0 := by simp [tzGo, he]
      rw [ht]
      simp only [pow_zero, Nat.div_one, one_mul]
      exact ⟨by omega, by trivial⟩

theorem odd_shiftRight_tz (d : Nat) (hd : d ≠ 0) : (d >>> tzGo d d) % 2 = 1 := by
  rw [Nat.shiftRight_eq_div_pow]
  exact (tzGo_spec d d hd le_rfl).1

theorem two_pow_tz_mul (d : Nat) (hd : d ≠ 0) : 2 ^ tzGo d d * (d >>> tzGo d d) = d := by
  rw [Nat.shiftRight_eq_div_pow]
  exact (tzGo_spec d d hd le_rfl).2

theorem shiftRight_tz_lt (d : Nat) (hd : d ≠ 0) (he : d % 2 = 0) : d >>> tzGo d d < d := by
  have h1 := (tzGo_spec d d hd le_rfl).1
  have h2 := (tzGo_spec d d hd le_rfl).2
  rw [Nat.shiftRight_eq_div_pow]
  rcases Nat.eq_zero_or_pos (tzGo d d) with h | h
  · rw [h] at h1
    simp at h1
    omega
  · have hge : 2 ≤ 2 ^ tzGo d d := by
      calc 2 = 2 ^ 1 := by norm_num
        _ ≤ 2 ^ tzGo d d := Nat.pow_le_pow_right (by norm_num) h
    have hp1 : 1 ≤ d / 2 ^ tzGo d d := by
      rcases Nat.eq_zero_or_pos (d / 2 ^ tzGo d d) with hz | hz
      · rw [hz] at h2
        simp at h2
        omega
      · exact hz
    nlinarith

/-- The subtraction-and-shift loop of the binary GCD from `src/util.rs`:
swap so the smaller is first, subtract, strip the new trailing zeros, repeat
until the difference is zero.  The two hypotheses carry the loop invariant
(both values odd) that the source documents with `debug_assert!`. -/
def gcdLoop (n m : Nat) (hn : n % 2 = 1) (hm : m % 2 = 1) : Nat :=
  let a := min n m
  let b := max n m
  let d := b - a
  if hd : d = 0 then a
  else
    gcdLoop a (d >>> tzGo d d)
      (by rcases le_total n m with h | h
          · simpa [a, min_eq_left h] using hn
          · simpa [a, min_eq_right h] using hm)
      (odd_shiftRight_tz d hd)
termination_by n + m
decreasing_by
  have heven : (max n m - min n m) % 2 = 0 := by
    rcases le_total n m with h | h <;> simp [min_eq_left, min_eq_right, max_eq_left, max_eq_right, h] <;> omega
  have hlt := shiftRight_tz_lt (max n m - min n m) hd heven
  have hodd : min n m % 2 = 1 := by
    rcases le_total n m with h | h
    · simpa [min_eq_left h] using hn
    · simpa [min_eq_right h] using hm
  omega

theorem trailing_zeros_eq_none {n : Nat} (h : trailing_zeros n = none) : n = 0 := by
  by_cases hn : n = 0
  · exact hn
  · simp [trailing_zeros, hn] at h

theorem trailing_zeros_eq_some {n i : Nat} (h : trailing_zeros n = some i) :
    n ≠ 0 ∧ (n >>> i) % 2 = 1 ∧ 2 ^ i * (n >>> i) = n := by
  by_cases hn : n = 0
  · simp [trailing_zeros, hn] at h
  · have h' : tzGo n n = i := by simpa [trailing_zeros, hn] using h
    subst h'
    exact ⟨hn, odd_shiftRight_tz n hn, two_pow_tz_mul n hn⟩

/-- The binary GCD from `src/util.rs`: strip each argument's trailing zero
bits (returning the other argument when one is zero — note the second base
case returns the already-shifted `n`), run the odd-odd loop, and restore the
common power of two `min i j`. -/
def gcd (n m : Nat) : Nat :=
  match h1 : trailing_zeros n with
  | none => m
  | some i =>
    match h2 : trailing_zeros m with
    | none => n >>> i
    | some j =>
      gcdLoop (n >>> i) (m >>> j)
        ((trailing_zeros_eq_some h1).2.1)
        ((trailing_zeros_eq_some h2).2.1) <<< min i j

theorem gcdLoop_eq_aux : ∀ (N n m : Nat) (hn : n % 2 = 1) (hm : m % 2 = 1), n + m ≤ N →
    gcdLoop n m hn hm = Nat.gcd n m := by
  intro N
  induction N with
  | zero => intro n m hn hm h; omega
  | succ N ih =>
    intro n m hn hm hle
    rw [gcdLoop]
    split
    · rename_i hd
      have hnm : n = m := by omega
      subst hnm
      simp [Nat.gcd_self]
    · rename_i hd
      have heven : (max n m - min n m) % 2 = 0 := by omega
      have hlt := shiftRight_tz_lt (max n m - min n m) hd heven
      have hodd : min n m % 2 = 1 := by
        rcases le_total n m with h | h
        · simpa [min_eq_left h] using hn
        · simpa [min_eq_right h] using hm
      rw [ih _ _ _ _ (by omega)]
      have hsplit := two_pow_tz_mul (max n m - min n m) hd
      have hco : Nat.Coprime (2 ^ tzGo (max n m - min n m) (max n m - min n m)) (min n m) :=
        Nat.Coprime.pow_left _ (Nat.coprime_two_left.mpr (Nat.odd_iff.mpr hodd))
      calc Nat.gcd (min n m) ((max n m - min n m) >>> tzGo (max n m - min n m) (max n m - min n m))
          = Nat.gcd (min n m) (max n m - min n m) := by
            conv_rhs => rw [← hsplit]
            rw [Nat.Coprime.gcd_mul_left_cancel_right _ hco]
        _ = Nat.gcd (min n m) (max n m) := Nat.gcd_sub_self_right (min_le_max)
        _ = Nat.gcd n m := by
            rcases le_total n m with h | h
            · rw [min_eq_left h, max_eq_right h]
            · rw [min_eq_right h, max_eq_left h, Nat.gcd_comm]

theorem gcdLoop_eq (n m : Nat) (hn : n % 2 = 1) (hm : m % 2 = 1) :
    gcdLoop n m hn hm = Nat.gcd n m :=
  gcdLoop_eq_aux (n + m) n m hn hm le_rfl

theorem gcd_two_pow (i j u v : Nat) (hu : u % 2 = 1) (hv : v % 2 = 1) :
    Nat.gcd (2 ^ i * u) (2 ^ j * v) = 2 ^ min i j * Nat.gcd u v := by
  rcases le_total i j with h | h
  · have hpow : 2 ^ j = 2 ^ i * 2 ^ (j - i) := by
      rw [← pow_add]
      congr 1
      omega
    rw [hpow, min_eq_left h, mul_assoc, Nat.gcd_mul_left]
    congr 1
    exact Nat.Coprime.gcd_mul_left_cancel_right v
      (Nat.Coprime.pow_left _ (Nat.coprime_two_left.mpr (Nat.odd_iff.mpr hu)))
  · have hpow : 2 ^ i = 2 ^ j * 2 ^ (i - j) := by
      rw [← pow_add]
      congr 1
      omega
    rw [hpow, min_eq_right h, mul_assoc, Nat.gcd_mul_left]
    congr 1
    exact Nat.Coprime.gcd_mul_left_cancel u
      (Nat.Coprime.pow_left _ (Nat.coprime_two_left.mpr (Nat.odd_iff.mpr hv)))

/-- On a non-zero second argument the source's binary GCD agrees with the
mathematical greatest common divisor (the divergence is confined to
`gcd n 0` for even non-zero `n`). -/
theorem gcd_eq_nat_gcd (n m : Nat) (hm : m ≠ 0) : gcd n m = Nat.gcd n m := by
  rw [gcd]
  split
  · rename_i h1
    rw [trailing_zeros_eq_none h1, Nat.gcd_zero_left]
  · rename_i i h1
    split
    · rename_i h2
      exact absurd (trailing_zeros_eq_none h2) hm
    · rename_i j h2
      obtain ⟨hn0, hno, hnp⟩ := trailing_zeros_eq_some h1
      obtain ⟨hm0, hmo, hmp⟩ := trailing_zeros_eq_some h2
      rw [gcdLoop_eq, Nat.shiftLeft_eq]
      conv_rhs => rw [← hnp, ← hmp]
      rw [gcd_two_pow i j _ _ hno hmo]
      ring

/-- Mirrors `RBig::reduce` (state-passing form): divide numerator and wrapped
denominator by the binary GCD of the two. -/
def RBig.reduce (a : RBig) : RBig :=
  ⟨a.sign, a.numer / gcd a.numer a.denom.get, a.denom.div (gcd a.numer a.denom.get)⟩

/-- Mirrors `RBig::reduced`. -/
def RBig.reduced (a : RBig) : RBig := a.reduce

/-- The `RoundingDirection` enum from `src/lib.rs`. -/
inductive RoundingDirection where
  | TowardsZero
  | AwayFromZero
deriving DecidableEq, Repr

/-- Mirrors `RBig::abs_floor`. -/
def RBig.abs_floor (a : RBig) : Nat := a.numer / a.denom.get

/-- Mirrors `RBig::abs_ceil_impl`, with `Nat` truncating subtraction in place
of `UBig` subtraction; its callers only reach it with `numer ≠ 0`, where the
two agree (see `abs_ceil_checked` for the panic-faithful model). -/
def RBig.abs_ceil_impl (a : RBig) : Nat := (a.numer - 1) / a.denom.get + 1

/-- Mirrors `RBig::abs_ceil`: zero check, then `abs_ceil_impl`. -/
def RBig.abs_ceil (a : RBig) : Nat :=
  if a.numer = 0 then 0 else a.abs_ceil_impl

/-- Mirrors `RBig::round_abs`; the `RoundingDirectionDecider` trait object is
a plain function from the value to a direction. -/
def RBig.round_abs (a : RBig) (dir : RBig → RoundingDirection) : Nat :=
  let s := a.abs
  match dir s with
  | .TowardsZero => s.abs_floor
  | .AwayFromZero => s.abs_ceil

/-- Mirrors `RBig::round`: decide a direction on the original value, round the
absolute value accordingly, re-attach the stored sign. -/
def RBig.round (a : RBig) (dir : RBig → RoundingDirection) : Int :=
  a.sign.mulInt (Int.ofNat (match dir a with
    | .TowardsZero => a.abs_floor
    | .AwayFromZero => a.abs_ceil))

/-- Mirrors `impl RoundingDirectionDecider for RoundingDirection`. -/
def dirDecide (d : RoundingDirection) : RBig → RoundingDirection := fun _ => d

/-- Mirrors `rounding::Floor`. -/
def floorDecide : RBig → RoundingDirection := fun r =>
  if r.is_negative then .AwayFromZero else .TowardsZero

/-- Mirrors `rounding::Ceil`. -/
def ceilDecide : RBig → RoundingDirection := fun r =>
  if r.is_positive then .AwayFromZero else .TowardsZero

/-- Mirrors `rounding::TowardNearest`: compare twice the truncated fractional
part against the denominator, delegating exact halves to the tie breaker. -/
def towardNearestDecide (tie : RBig → RoundingDirection) : RBig → RoundingDirection := fun r =>
  let fract := r.sub (RBig.ofIBig (r.round (dirDecide .TowardsZero)))
  let abs_fract := fract.abs
  match compare (abs_fract.numer * 2) abs_fract.denom.get with
  | .gt => .AwayFromZero
  | .lt => .TowardsZero
  | .eq => tie r

/-- Mirrors `rounding::TowardNearestEven`. -/
def towardNearestEvenDecide : RBig → RoundingDirection := fun r =>
  if r.round_abs (dirDecide .TowardsZero) % 2 = 0 then .TowardsZero else .AwayFromZero

/-- Mirrors `rounding::TowardNearestOdd`. -/
def towardNearestOddDecide : RBig → RoundingDirection := fun r =>
  if r.round_abs (dirDecide .TowardsZero) % 2 = 1 then .TowardsZero else .AwayFromZero

/-- Mirrors `RBig::trunc`. -/
def RBig.trunc (a : RBig) : RBig := RBig.ofIBig (a.round (dirDecide .TowardsZero))

/-- Mirrors `RBig::fract`: `numer mod denom`, original sign and denominator. -/
def RBig.fract (a : RBig) : RBig := ⟨a.sign, a.numer % a.denom.get, a.denom⟩

/-- Models `UBig` subtraction faithfully to its panic on underflow:
`none` when the subtrahend is larger. -/
def ubigCheckedSub (a b : Nat) : Option Nat :=
  if b ≤ a then some (a - b) else none

/-- Panic-faithful model of `RBig::abs_ceil_impl`: `none` exactly when the
`numer - 1` subtraction would underflow. -/
def RBig.abs_ceil_impl_checked (a : RBig) : Option Nat :=
  (ubigCheckedSub a.numer 1).map (fun x => x / a.denom.get + 1)

/-- Panic-faithful model of the public `RBig::abs_ceil`. -/
def RBig.abs_ceil_checked (a : RBig) : Option Nat :=
  if a.numer = 0 then some 0 else a.abs_ceil_impl_checked

/-- Interpretation of a sign as a rational unit. -/
def Sign.toQ : Sign → ℚ
  | .Positive => 1
  | .Negative => -1

/-- The rational number an `RBig` represents: `sign × numer / denom`.  This is
the semantic interpretation the correctness statements refer to. -/
def RBig.value (a : RBig) : ℚ := a.sign.toQ * (a.numer : ℚ) / (a.denom.get : ℚ)

/-- The tuple `impl Hash for RBig` feeds to the hasher: reduce a clone, force
the sign of a reduced zero to `Positive`, hash `(sign, numer, denom)`.  Equal
tuples yield equal hashes for any hasher, so hash consistency is stated as
equality of these tuples. -/
def RBig.hash_input (a : RBig) : Sign × Nat × Nat :=
  let r := a.reduced
  ((if r.numer = 0 then Sign.Positive else r.sign), r.numer, r.denom.get)

theorem Sign.toQ_ne_zero (s : Sign) : s.toQ ≠ 0 := by
  cases s <;> norm_num [Sign.toQ]

theorem Sign.mulInt_cast (s : Sign) (x : Int) :
    ((s.mulInt x : Int) : ℚ) = s.toQ * (x : ℚ) := by
  cases s <;> simp [Sign.mulInt, Sign.toQ]

theorem value_from_numer_unsigned_denom (n : Int) (d : NonZeroUBig) :
    (RBig.from_numer_unsigned_denom n d).value = (n : ℚ) / (d.get : ℚ) := by
  unfold RBig.from_numer_unsigned_denom RBig.new RBig.value Sign.positive_if
  rcases le_or_lt 0 n with h | h
  · rw [if_pos (by simpa using h)]
    have habs : ((n.natAbs : ℕ) : ℚ) = (n : ℚ) := by
      rw [Nat.cast_natAbs, abs_of_nonneg h]
    rw [habs]
    simp only [Sign.toQ]
    ring
  · rw [if_neg (by simpa using not_le.mpr h)]
    have habs : ((n.natAbs : ℕ) : ℚ) = -(n : ℚ) := by
      rw [Nat.cast_natAbs, abs_of_neg h]
      push_cast
      ring
    rw [habs]
    simp only [Sign.toQ]
    ring

theorem value_ofIBig (n : Int) : (RBig.ofIBig n).value = (n : ℚ) := by
  have h : RBig.ofIBig n = RBig.from_numer_unsigned_denom n NonZeroUBig.one := rfl
  rw [h, value_from_numer_unsigned_denom]
  simp [NonZeroUBig.get, NonZeroUBig.one]

theorem value_zero_iff (a : RBig) (hd : a.denom.get ≠ 0) :
    a.value = 0 ↔ a.numer = 0 := by
  unfold RBig.value
  rw [div_eq_zero_iff, mul_eq_zero]
  have h1 := Sign.toQ_ne_zero a.sign
  constructor
  · rintro ((h | h) | h)
    · exact absurd h h1
    · exact_mod_cast h
    · exact absurd (by exact_mod_cast h) hd
  · intro h
    exact Or.inl (Or.inr (by exact_mod_cast h))

/-- Core semantic bridge: on values with non-zero denominators, the source's
cross-multiplication equality decides exactly equality of the represented
rational numbers. -/
theorem eq_iff_value (a b : RBig) (ha : a.denom.get ≠ 0) (hb : b.denom.get ≠ 0) :
    a.eq b = true ↔ a.value = b.value := by
  have haq : (0 : ℚ) < (a.denom.get : ℚ) := by
    exact_mod_cast Nat.pos_of_ne_zero ha
  have hbq : (0 : ℚ) < (b.denom.get : ℚ) := by
    exact_mod_cast Nat.pos_of_ne_zero hb
  unfold RBig.eq
  by_cases hz : a.numer = 0 ∧ b.numer = 0
  · rw [if_pos hz]
    simp only [true_iff]
    unfold RBig.value
    rw [hz.1, hz.2]
    simp
  · rw [if_neg hz]
    simp only [Bool.and_eq_true, decide_eq_true_eq, RBig.cross_mul_abs, Pair.fold]
    constructor
    · rintro ⟨hs, hcross⟩
      unfold RBig.value
      rw [hs, div_eq_div_iff (by positivity) (by positivity)]
      have hq : ((a.numer * b.denom.get : ℕ) : ℚ) = ((b.numer * a.denom.get : ℕ) : ℚ) := by
        exact_mod_cast hcross
      push_cast at hq
      ring_nf
      ring_nf at hq
      rcases b.sign with _ | _ <;> simp [Sign.toQ] <;> nlinarith [hq]
    · intro hv
      have hna : a.numer ≠ 0 := by
        intro h0
        have hb0 : b.value = 0 := by
          rw [← hv, value_zero_iff a ha]
          exact h0
        rw [value_zero_iff b hb] at hb0
        exact hz ⟨h0, hb0⟩
      have hnb : b.numer ≠ 0 := by
        intro h0
        have ha0 : a.value = 0 := by
          rw [hv, value_zero_iff b hb]
          exact h0
        rw [value_zero_iff a ha] at ha0
        exact hz ⟨ha0, h0⟩
      have hposa : (0 : ℚ) < (a.numer : ℚ) / (a.denom.get : ℚ) := by
        have : (0 : ℚ) < (a.numer : ℚ) := by
          exact_mod_cast Nat.pos_of_ne_zero hna
        positivity
      have hposb : (0 : ℚ) < (b.numer : ℚ) / (b.denom.get : ℚ) := by
        have : (0 : ℚ) < (b.numer : ℚ) := by
          exact_mod_cast Nat.pos_of_ne_zero hnb
        positivity
      unfold RBig.value at hv
      have hsign : a.sign = b.sign := by
        rcases ha' : a.sign with _ | _ <;> rcases hb' : b.sign with _ | _ <;>
          rw [ha', hb'] at hv <;> simp only [Sign.toQ] at hv <;> first
          | rfl
          | (exfalso
             rw [neg_one_mul, neg_div] at hv
             rw [one_mul] at hv
             linarith [hposa, hposb])
      refine ⟨hsign, ?_⟩
      rw [hsign] at hv
      have hv2 : (a.numer : ℚ) / (a.denom.get : ℚ) = (b.numer : ℚ) / (b.denom.get : ℚ) := by
        have h := hv
        rw [mul_div_assoc, mul_div_assoc] at h
        exact mul_left_cancel₀ (Sign.toQ_ne_zero b.sign) h
      rw [div_eq_div_iff (by positivity) (by positivity)] at hv2
      exact_mod_cast hv2

theorem add_denom (a b : RBig) : (a.add b).denom.get = a.denom.get * b.denom.get := rfl

theorem sub_denom (a b : RBig) : (a.sub b).denom.get = a.denom.get * b.denom.get := rfl

theorem mul_denom (a b : RBig) : (a.mul b).denom.get = a.denom.get * b.denom.get := rfl

theorem div_denom (a b : RBig) : (a.div b).denom.get = a.denom.get * b.numer := rfl

theorem add_assign_denom (a b : RBig) :
    (a.add_assign b).denom.get = a.denom.get * b.denom.get := by
  unfold RBig.add_assign
  dsimp only
  split_ifs <;> rfl

theorem value_add (a b : RBig) (ha : a.denom.get ≠ 0) (hb : b.denom.get ≠ 0) :
    (a.add b).value = a.value + b.value := by
  have haq : (a.denom.get : ℚ) ≠ 0 := Nat.cast_ne_zero.mpr ha
  have hbq : (b.denom.get : ℚ) ≠ 0 := Nat.cast_ne_zero.mpr hb
  unfold RBig.add RBig.cross_mul_signed Pair.fold
  rw [value_from_numer_unsigned_denom]
  unfold RBig.value NonZeroUBig.mul NonZeroUBig.get at *
  push_cast [Sign.mulInt_cast]
  field_simp
  ring

theorem value_sub (a b : RBig) (ha : a.denom.get ≠ 0) (hb : b.denom.get ≠ 0) :
    (a.sub b).value = a.value - b.value := by
  have haq : (a.denom.get : ℚ) ≠ 0 := Nat.cast_ne_zero.mpr ha
  have hbq : (b.denom.get : ℚ) ≠ 0 := Nat.cast_ne_zero.mpr hb
  unfold RBig.sub RBig.cross_mul_signed Pair.fold
  rw [value_from_numer_unsigned_denom]
  unfold RBig.value NonZeroUBig.mul NonZeroUBig.get at *
  push_cast [Sign.mulInt_cast]
  field_simp
  ring

theorem value_mul (a b : RBig) : (a.mul b).value = a.value * b.value := by
  unfold RBig.mul RBig.value NonZeroUBig.mul NonZeroUBig.get Sign.mul Sign.positive_if
  cases a.sign <;> cases b.sign <;> simp [Sign.toQ] <;> push_cast <;> ring

theorem value_recip (a : RBig) : a.recip.value = a.value⁻¹ := by
  unfold RBig.recip RBig.unchecked_recip RBig.value NonZeroUBig.get
  cases a.sign <;> simp [Sign.toQ, neg_div, inv_neg, inv_div]

theorem value_neg (a : RBig) : a.neg.value = -a.value := by
  unfold RBig.neg RBig.value NonZeroUBig.get Sign.neg
  cases a.sign <;> simp [Sign.toQ] <;> ring

theorem Sign.is_positive_mul_iff (s t : Sign) :
    (Sign.mul s t).is_positive = true ↔ s = t := by
  cases s <;> cases t <;> simp [Sign.mul, Sign.positive_if, Sign.is_positive]

theorem Sign.toQ_neg (s : Sign) : s.neg.toQ = -s.toQ := by
  cases s <;> simp [Sign.neg, Sign.toQ]

theorem Sign.toQ_of_ne (s t : Sign) (h : s ≠ t) : t.toQ = -s.toQ := by
  cases s <;> cases t <;> simp_all [Sign.toQ]

theorem value_add_assign (a b : RBig) (ha : a.denom.get ≠ 0) (hb : b.denom.get ≠ 0) :
    (a.add_assign b).value = a.value + b.value := by
  have haq : (a.denom.get : ℚ) ≠ 0 := Nat.cast_ne_zero.mpr ha
  have hbq : (b.denom.get : ℚ) ≠ 0 := Nat.cast_ne_zero.mpr hb
  unfold NonZeroUBig.get at haq hbq
  unfold RBig.add_assign RBig.value NonZeroUBig.mul NonZeroUBig.get
  dsimp only
  split_ifs with h1 h2
  · have hs : b.sign = a.sign := (Sign.is_positive_mul_iff _ _).mp h1
    rw [hs]
    push_cast
    cases a.sign <;> simp [Sign.toQ] <;> field_simp <;> ring
  · have hs : b.sign ≠ a.sign := fun hc => h1 ((Sign.is_positive_mul_iff _ _).mpr hc)
    rw [Sign.toQ_of_ne a.sign b.sign (Ne.symm hs)]
    push_cast [Nat.cast_sub h2]
    cases a.sign <;> simp [Sign.toQ] <;> field_simp <;> ring
  · have hs : b.sign ≠ a.sign := fun hc => h1 ((Sign.is_positive_mul_iff _ _).mpr hc)
    rw [Sign.toQ_neg, Sign.toQ_of_ne a.sign b.sign (Ne.symm hs)]
    push_cast [Nat.cast_sub (le_of_not_le h2)]
    cases a.sign <;> simp [Sign.toQ] <;> field_simp <;> ring

/-- C1: the claimed property fails on the code.  On the shared `Neg` class,
`RBig.cmp` compares the cross-multiplication products without reversing the
order, so the stored value `-2/1` is reported `Greater` than `-1/1` even
though its rational value is smaller. -/
theorem c1_cmp_misorders_negative_values :
    RBig.cmp ⟨.Negative, 2, ⟨1⟩⟩ ⟨.Negative, 1, ⟨1⟩⟩ = Ordering.gt ∧
      RBig.value ⟨.Negative, 2, ⟨1⟩⟩ < RBig.value ⟨.Negative, 1, ⟨1⟩⟩ := by
  constructor
  · decide
  · norm_num [RBig.value, Sign.toQ, NonZeroUBig.get]

/-- Unfolded characterization of the source's equality test. -/
theorem eq_true_iff (a b : RBig) :
    a.eq b = true ↔
      ((a.numer = 0 ∧ b.numer = 0) ∨
        (a.sign = b.sign ∧ a.numer * b.denom.get = b.numer * a.denom.get)) := by
  unfold RBig.eq RBig.cross_mul_abs Pair.fold
  by_cases hz : a.numer = 0 ∧ b.numer = 0
  · simp [hz]
  · rw [if_neg hz]
    simp only [Bool.and_eq_true, decide_eq_true_eq]
    tauto

/-- C2: two values are equal exactly when both numerators are zero or when
the signs agree and the cross-multiplication products agree; consequently two
values with the same sign whose numerator/denominator pairs have the same
reduced fraction are equal. -/
theorem c2_eq_characterization :
    (∀ a b : RBig, a.eq b = true ↔
      ((a.numer = 0 ∧ b.numer = 0) ∨
        (a.sign = b.sign ∧ a.numer * b.denom.get = b.numer * a.denom.get))) ∧
    (∀ (s : Sign) (n d n' d' : Nat), d ≠ 0 → d' ≠ 0 →
      n / Nat.gcd n d = n' / Nat.gcd n' d' → d / Nat.gcd n d = d' / Nat.gcd n' d' →
      RBig.eq ⟨s, n, ⟨d⟩⟩ ⟨s, n', ⟨d'⟩⟩ = true) := by
  constructor
  · exact eq_true_iff
  · intro s n d n' d' hd hd' h1 h2
    have hn : Nat.gcd n d * (n / Nat.gcd n d) = n := Nat.mul_div_cancel' (Nat.gcd_dvd_left n d)
    have hdd : Nat.gcd n d * (d / Nat.gcd n d) = d := Nat.mul_div_cancel' (Nat.gcd_dvd_right n d)
    have hn' : Nat.gcd n' d' * (n' / Nat.gcd n' d') = n' :=
      Nat.mul_div_cancel' (Nat.gcd_dvd_left n' d')
    have hdd' : Nat.gcd n' d' * (d' / Nat.gcd n' d') = d' :=
      Nat.mul_div_cancel' (Nat.gcd_dvd_right n' d')
    have hcross : n * d' = n' * d := by
      calc n * d'
          = (Nat.gcd n d * (n / Nat.gcd n d)) * (Nat.gcd n' d' * (d' / Nat.gcd n' d')) := by
            rw [hn, hdd']
        _ = (Nat.gcd n' d' * (n' / Nat.gcd n' d')) * (Nat.gcd n d * (d / Nat.gcd n d)) := by
            rw [h1, h2]
            ring
        _ = n' * d := by rw [hn', hdd]
    unfold RBig.eq RBig.cross_mul_abs Pair.fold NonZeroUBig.get
    dsimp only
    by_cases hz : n = 0 ∧ n' = 0
    · rw [if_pos hz]
    · rw [if_neg hz]
      simp [hcross]

/-- C2 witness: the general statement applied to `1/2` and `2/4`. -/
theorem c2_eq_characterization_witness :
    RBig.eq ⟨Sign.Positive, 1, ⟨2⟩⟩ ⟨Sign.Positive, 2, ⟨4⟩⟩ = true :=
  c2_eq_characterization.2 Sign.Positive 1 2 2 4 (by decide) (by decide) (by decide) (by decide)

/-- C3: with non-zero denominators and a non-zero second numerator,
`(a + b) - b == a` and `(a * b) / b == a` hold under the source's equality. -/
theorem c3_operators_exact (a b : RBig)
    (ha : a.denom.get ≠ 0) (hb : b.denom.get ≠ 0) (hn : b.numer ≠ 0) :
    ((a.add b).sub b).eq a = true ∧ ((a.mul b).div b).eq a = true := by
  have hvb : b.value ≠ 0 := fun h => hn ((value_zero_iff b hb).mp h)
  constructor
  · rw [eq_iff_value _ _
      (by rw [sub_denom, add_denom]; exact Nat.mul_ne_zero (Nat.mul_ne_zero ha hb) hb) ha]
    rw [value_sub _ _ (by rw [add_denom]; exact Nat.mul_ne_zero ha hb) hb,
      value_add a b ha hb]
    ring
  · rw [eq_iff_value _ _
      (by rw [div_denom, mul_denom]; exact Nat.mul_ne_zero (Nat.mul_ne_zero ha hb) hn) ha]
    unfold RBig.div
    rw [value_mul, value_recip, value_mul, mul_assoc, mul_inv_cancel₀ hvb, mul_one]

/-- C3 witness: the identity at `a = 1/2`, `b = 3/4`. -/
theorem c3_operators_exact_witness :
    ((RBig.add ⟨Sign.Positive, 1, ⟨2⟩⟩ ⟨Sign.Positive, 3, ⟨4⟩⟩).sub
        ⟨Sign.Positive, 3, ⟨4⟩⟩).eq ⟨Sign.Positive, 1, ⟨2⟩⟩ = true ∧
      ((RBig.mul ⟨Sign.Positive, 1, ⟨2⟩⟩ ⟨Sign.Positive, 3, ⟨4⟩⟩).div
        ⟨Sign.Positive, 3, ⟨4⟩⟩).eq ⟨Sign.Positive, 1, ⟨2⟩⟩ = true :=
  c3_operators_exact ⟨Sign.Positive, 1, ⟨2⟩⟩ ⟨Sign.Positive, 3, ⟨4⟩⟩
    (by decide) (by decide) (by decide)

/-- C4: the in-place addition agrees with the operator addition under the
source's equality, and the two sign-flip examples from the spec hold. -/
theorem c4_add_assign_matches_add :
    (∀ a b : RBig, a.denom.get ≠ 0 → b.denom.get ≠ 0 →
      (a.add_assign b).eq (a.add b) = true) ∧
    (RBig.add_assign ⟨.Positive, 3, ⟨4⟩⟩ ⟨.Negative, 1, ⟨4⟩⟩).eq ⟨.Positive, 1, ⟨2⟩⟩ = true ∧
    (RBig.add_assign ⟨.Positive, 1, ⟨4⟩⟩ ⟨.Negative, 3, ⟨4⟩⟩).eq ⟨.Negative, 1, ⟨2⟩⟩ = true := by
  refine ⟨?_, by decide, by decide⟩
  intro a b ha hb
  rw [eq_iff_value _ _ (by rw [add_assign_denom]; exact Nat.mul_ne_zero ha hb)
      (by rw [add_denom]; exact Nat.mul_ne_zero ha hb)]
  rw [value_add_assign a b ha hb, value_add a b ha hb]

/-- C4 witness: the general agreement applied to `3/4` and `-1/4`. -/
theorem c4_add_assign_matches_add_witness :
    (RBig.add_assign ⟨.Positive, 3, ⟨4⟩⟩ ⟨.Negative, 1, ⟨4⟩⟩).eq
      (RBig.add ⟨.Positive, 3, ⟨4⟩⟩ ⟨.Negative, 1, ⟨4⟩⟩) = true :=
  c4_add_assign_matches_add.1 ⟨.Positive, 3, ⟨4⟩⟩ ⟨.Negative, 1, ⟨4⟩⟩ (by decide) (by decide)

/-- C5: the claimed identity `gcd n 0 = n` fails on the code: for the even
non-zero input `n = 4` the source's `gcd` returns the odd part `1` (the second
base case returns `n` after it was already shifted), while the mathematical
greatest common divisor of `4` and `0` is `4`. -/
theorem c5_gcd_even_zero_bug : gcd 4 0 = 1 ∧ Nat.gcd 4 0 = 4 :=
  ⟨rfl, Nat.gcd_zero_right 4⟩

/-- C6: the seven concrete rounding results listed in the spec, evaluated on
the source's rounding entry point. -/
theorem c6_round_concrete :
    RBig.round ⟨.Positive, 7, ⟨2⟩⟩ floorDecide = 3 ∧
    RBig.round ⟨.Negative, 7, ⟨2⟩⟩ floorDecide = -4 ∧
    RBig.round ⟨.Positive, 7, ⟨2⟩⟩ ceilDecide = 4 ∧
    RBig.round ⟨.Negative, 7, ⟨2⟩⟩ ceilDecide = -3 ∧
    RBig.round ⟨.Positive, 5, ⟨2⟩⟩ (towardNearestDecide towardNearestEvenDecide) = 2 ∧
    RBig.round ⟨.Positive, 7, ⟨2⟩⟩ (towardNearestDecide towardNearestEvenDecide) = 4 ∧
    RBig.round ⟨.Positive, 3, ⟨2⟩⟩ (towardNearestDecide towardNearestOddDecide) = 1 := by
  decide

/-- C10: with a zero numerator every rounding decider yields `0` from both
`round` and `round_abs`, and the public `abs_ceil` never reaches the
underflowing subtraction: its panic-faithful model always returns a value,
and that value is the one of the total model. -/
theorem c10_zero_rounds_and_no_underflow :
    (∀ (a : RBig) (dir : RBig → RoundingDirection), a.numer = 0 →
      a.round dir = 0 ∧ a.round_abs dir = 0) ∧
    (∀ a : RBig, a.abs_ceil_checked = some a.abs_ceil) := by
  constructor
  · intro a dir h
    constructor
    · unfold RBig.round
      cases hd : dir a <;>
        simp [hd, RBig.abs_floor, RBig.abs_ceil, h, Sign.mulInt] <;>
        cases a.sign <;> simp [Sign.mulInt]
    · unfold RBig.round_abs
      dsimp only
      cases hd : dir a.abs <;>
        simp [hd, RBig.abs_floor, RBig.abs_ceil, RBig.abs, h]
  · intro a
    unfold RBig.abs_ceil_checked RBig.abs_ceil RBig.abs_ceil_impl_checked RBig.abs_ceil_impl
      ubigCheckedSub
    by_cases h : a.numer = 0
    · simp [h]
    · have h1 : 1 ≤ a.numer := Nat.one_le_iff_ne_zero.mpr h
      simp [h, h1]

/-- C10 witness: the zero-numerator statement applied to `-0/7` with the
floor decider. -/
theorem c10_zero_rounds_witness :
    RBig.round ⟨Sign.Negative, 0, ⟨7⟩⟩ floorDecide = 0 ∧
      RBig.round_abs ⟨Sign.Negative, 0, ⟨7⟩⟩ floorDecide = 0 :=
  c10_zero_rounds_and_no_underflow.1 ⟨Sign.Negative, 0, ⟨7⟩⟩ floorDecide rfl

theorem value_trunc (a : RBig) :
    a.trunc.value = a.sign.toQ * ((a.numer / a.denom.get : ℕ) : ℚ) := by
  unfold RBig.trunc
  rw [value_ofIBig]
  have hr : a.round (dirDecide .TowardsZero) =
      a.sign.mulInt (Int.ofNat (a.numer / a.denom.get)) := rfl
  rw [hr, Sign.mulInt_cast]
  norm_cast

/-- C8: truncation plus fractional part reassembles the original value under
the source's equality, for every value with a non-zero denominator. -/
theorem c8_trunc_add_fract (a : RBig) (ha : a.denom.get ≠ 0) :
    (a.trunc.add a.fract).eq a = true := by
  have htd : a.trunc.denom.get = 1 := rfl
  have hfd : a.fract.denom.get = a.denom.get := rfl
  have hdq : (a.denom.get : ℚ) ≠ 0 := Nat.cast_ne_zero.mpr ha
  rw [eq_iff_value _ _ (by rw [add_denom, htd, hfd]; simpa using ha) ha]
  rw [value_add _ _ (by rw [htd]; norm_num) (by rw [hfd]; exact ha)]
  rw [value_trunc]
  have hfv : a.fract.value =
      a.sign.toQ * ((a.numer % a.denom.get : ℕ) : ℚ) / (a.denom.get : ℚ) := rfl
  rw [hfv]
  unfold RBig.value
  have key : (a.numer : ℚ) =
      (a.denom.get : ℚ) * ((a.numer / a.denom.get : ℕ) : ℚ) +
        ((a.numer % a.denom.get : ℕ) : ℚ) := by
    exact_mod_cast (congrArg (fun k : ℕ => (k : ℚ)) (Nat.div_add_mod a.numer a.denom.get)).symm
  rw [key]
  field_simp
  ring

/-- C8 witness: the identity at `7/2`. -/
theorem c8_trunc_add_fract_witness :
    ((RBig.trunc ⟨Sign.Positive, 7, ⟨2⟩⟩).add (RBig.fract ⟨Sign.Positive, 7, ⟨2⟩⟩)).eq
      ⟨Sign.Positive, 7, ⟨2⟩⟩ = true :=
  c8_trunc_add_fract ⟨Sign.Positive, 7, ⟨2⟩⟩ (by decide)

theorem reduce_components (a : RBig) (hd : a.denom.get ≠ 0) :
    a.reduced.numer = a.numer / Nat.gcd a.numer a.denom.get ∧
    a.reduced.denom.get = a.denom.get / Nat.gcd a.numer a.denom.get ∧
    a.reduced.sign = a.sign := by
  unfold RBig.reduced RBig.reduce NonZeroUBig.div NonZeroUBig.get at *
  rw [gcd_eq_nat_gcd _ _ hd]
  exact ⟨rfl, rfl, rfl⟩

/-- Uniqueness of the reduced form: two numerator/denominator pairs with
equal cross products reduce to identical pairs. -/
theorem reduced_unique (n d n' d' : Nat) (hd : d ≠ 0) (hd' : d' ≠ 0)
    (hcross : n * d' = n' * d) :
    n / Nat.gcd n d = n' / Nat.gcd n' d' ∧ d / Nat.gcd n d = d' / Nat.gcd n' d' := by
  by_cases hn : n = 0
  · have hn' : n' = 0 := by
      rw [hn, zero_mul] at hcross
      rcases Nat.mul_eq_zero.mp hcross.symm with h | h
      · exact h
      · exact absurd h hd
    rw [hn, hn']
    simp only [Nat.gcd_zero_left, Nat.zero_div, Nat.div_self (Nat.pos_of_ne_zero hd),
      Nat.div_self (Nat.pos_of_ne_zero hd')]
    exact ⟨trivial, trivial⟩
  · have hn' : n' ≠ 0 := by
      intro h0
      rw [h0, zero_mul] at hcross
      rcases Nat.mul_eq_zero.mp hcross with h | h
      · exact hn h
      · exact hd' h
    have hgpos : 0 < Nat.gcd n d := Nat.gcd_pos_of_pos_right n (Nat.pos_of_ne_zero hd)
    have hg'pos : 0 < Nat.gcd n' d' := Nat.gcd_pos_of_pos_right n' (Nat.pos_of_ne_zero hd')
    have hA : Nat.gcd n d * (n / Nat.gcd n d) = n := Nat.mul_div_cancel' (Nat.gcd_dvd_left n d)
    have hC : Nat.gcd n d * (d / Nat.gcd n d) = d := Nat.mul_div_cancel' (Nat.gcd_dvd_right n d)
    have hB : Nat.gcd n' d' * (n' / Nat.gcd n' d') = n' :=
      Nat.mul_div_cancel' (Nat.gcd_dvd_left n' d')
    have hE : Nat.gcd n' d' * (d' / Nat.gcd n' d') = d' :=
      Nat.mul_div_cancel' (Nat.gcd_dvd_right n' d')
    have hco : Nat.Coprime (n / Nat.gcd n d) (d / Nat.gcd n d) :=
      Nat.coprime_div_gcd_div_gcd hgpos
    have hco' : Nat.Coprime (n' / Nat.gcd n' d') (d' / Nat.gcd n' d') :=
      Nat.coprime_div_gcd_div_gcd hg'pos
    have hAE : (n / Nat.gcd n d) * (d' / Nat.gcd n' d') =
        (n' / Nat.gcd n' d') * (d / Nat.gcd n d) := by
      have h2 : (Nat.gcd n d * Nat.gcd n' d') * ((n / Nat.gcd n d) * (d' / Nat.gcd n' d')) =
          (Nat.gcd n d * Nat.gcd n' d') * ((n' / Nat.gcd n' d') * (d / Nat.gcd n d)) := by
        calc (Nat.gcd n d * Nat.gcd n' d') * ((n / Nat.gcd n d) * (d' / Nat.gcd n' d'))
            = (Nat.gcd n d * (n / Nat.gcd n d)) * (Nat.gcd n' d' * (d' / Nat.gcd n' d')) := by
              ring
          _ = n * d' := by rw [hA, hE]
          _ = n' * d := hcross
          _ = (Nat.gcd n' d' * (n' / Nat.gcd n' d')) * (Nat.gcd n d * (d / Nat.gcd n d)) := by
              rw [hB, hC]
          _ = (Nat.gcd n d * Nat.gcd n' d') * ((n' / Nat.gcd n' d') * (d / Nat.gcd n d)) := by
              ring
      exact Nat.eq_of_mul_eq_mul_left (Nat.mul_pos hgpos hg'pos) h2
    have hAB : n / Nat.gcd n d = n' / Nat.gcd n' d' := by
      have h1 : (n / Nat.gcd n d) ∣ (n' / Nat.gcd n' d') * (d / Nat.gcd n d) :=
        ⟨d' / Nat.gcd n' d', hAE.symm⟩
      have h2 : (n / Nat.gcd n d) ∣ (n' / Nat.gcd n' d') :=
        Nat.Coprime.dvd_of_dvd_mul_right hco h1
      have h3 : (n' / Nat.gcd n' d') ∣ (n / Nat.gcd n d) * (d' / Nat.gcd n' d') :=
        ⟨d / Nat.gcd n d, hAE⟩
      have h4 : (n' / Nat.gcd n' d') ∣ (n / Nat.gcd n d) :=
        Nat.Coprime.dvd_of_dvd_mul_right hco' h3
      exact Nat.dvd_antisymm h2 h4
    have hApos : n / Nat.gcd n d ≠ 0 := by
      intro h0
      rw [h0, mul_zero] at hA
      exact hn hA.symm
    have hCE : d / Nat.gcd n d = d' / Nat.gcd n' d' := by
      have h5 : (n / Nat.gcd n d) * (d' / Nat.gcd n' d') = (n / Nat.gcd n d) * (d / Nat.gcd n d) := by
        rw [hAE, hAB]
      exact (Nat.eq_of_mul_eq_mul_left (Nat.pos_of_ne_zero hApos) h5).symm
    exact ⟨hAB, hCE⟩

theorem hash_input_of_zero (a : RBig) (ha : a.denom.get ≠ 0) (h : a.numer = 0) :
    a.hash_input = (Sign.Positive, 0, 1) := by
  obtain ⟨hra, hrda, hrsa⟩ := reduce_components a ha
  unfold RBig.hash_input
  dsimp only
  rw [hra, hrda, h]
  simp [Nat.gcd_zero_left, Nat.div_self (Nat.pos_of_ne_zero ha)]

/-- C7: two equal values (under the source's equality) produce the same tuple
for the hasher: reduction plus zero-sign canonicalization collapses every
representation of a rational to one hash input. -/
theorem c7_hash_consistency (a b : RBig) (ha : a.denom.get ≠ 0) (hb : b.denom.get ≠ 0)
    (heq : a.eq b = true) : a.hash_input = b.hash_input := by
  have hch := (eq_true_iff a b).mp heq
  by_cases hza : a.numer = 0
  · have hzb : b.numer = 0 := by
      rcases hch with ⟨_, h⟩ | ⟨_, hcross⟩
      · exact h
      · rw [hza, zero_mul] at hcross
        rcases Nat.mul_eq_zero.mp hcross.symm with h | h
        · exact h
        · exact absurd h ha
    rw [hash_input_of_zero a ha hza, hash_input_of_zero b hb hzb]
  · obtain ⟨hs, hcross⟩ : a.sign = b.sign ∧ a.numer * b.denom.get = b.numer * a.denom.get := by
      rcases hch with ⟨h, _⟩ | h
      · exact absurd h hza
      · exact h
    have hzb : b.numer ≠ 0 := by
      intro h0
      rw [h0, zero_mul] at hcross
      rcases Nat.mul_eq_zero.mp hcross with h | h
      · exact hza h
      · exact hb h
    obtain ⟨h1, h2⟩ := reduced_unique a.numer a.denom.get b.numer b.denom.get ha hb hcross
    obtain ⟨hra, hrda, hrsa⟩ := reduce_components a ha
    obtain ⟨hrb, hrdb, hrsb⟩ := reduce_components b hb
    have hAnz : a.reduced.numer ≠ 0 := by
      rw [hra]
      intro h0
      have hcan := Nat.mul_div_cancel' (Nat.gcd_dvd_left a.numer a.denom.get)
      rw [h0, mul_zero] at hcan
      exact hza hcan.symm
    have hBnz : b.reduced.numer ≠ 0 := by
      rw [hrb]
      intro h0
      have hcan := Nat.mul_div_cancel' (Nat.gcd_dvd_left b.numer b.denom.get)
      rw [h0, mul_zero] at hcan
      exact hzb hcan.symm
    unfold RBig.hash_input
    dsimp only
    rw [if_neg hAnz, if_neg hBnz, hrsa, hrsb, hra, hrb, hrda, hrdb, hs, h1, h2]

/-- C7 witness: equal representations `2/4` and `1/2` hash alike. -/
theorem c7_hash_consistency_witness :
    RBig.hash_input ⟨Sign.Positive, 2, ⟨4⟩⟩ = RBig.hash_input ⟨Sign.Positive, 1, ⟨2⟩⟩ :=
  c7_hash_consistency ⟨Sign.Positive, 2, ⟨4⟩⟩ ⟨Sign.Positive, 1, ⟨2⟩⟩
    (by decide) (by decide) (by decide)

theorem nonzero_div_of_dvd (v r : Nat) (hv : v ≠ 0) (hr : r ∣ v) : v / r ≠ 0 := by
  intro h0
  have hcan := Nat.mul_div_cancel' hr
  rw [h0, mul_zero] at hcan
  exact hv hcan.symm

theorem nonZeroUBig_new_some (u : Nat) (x : NonZeroUBig) (h : NonZeroUBig.new u = some x) :
    x.val ≠ 0 := by
  unfold NonZeroUBig.new at h
  split_ifs at h with hu
  cases h
  exact hu

/-- C9: every safe public operation preserves the non-zero-denominator
invariant, and each `NonZeroUBig` operation the source relies on maps
non-zero wrapped values to non-zero wrapped values. -/
theorem c9_denom_invariant :
    (∀ a b : RBig, a.denom.get ≠ 0 → b.denom.get ≠ 0 →
      (a.add b).denom.get ≠ 0 ∧ (a.sub b).denom.get ≠ 0 ∧ (a.mul b).denom.get ≠ 0 ∧
      (a.add_assign b).denom.get ≠ 0 ∧ (a.sub_assign b).denom.get ≠ 0 ∧
      (a.mul_assign b).denom.get ≠ 0) ∧
    (∀ a b : RBig, a.denom.get ≠ 0 → b.numer ≠ 0 →
      (a.div b).denom.get ≠ 0 ∧ (a.div_assign b).denom.get ≠ 0) ∧
    (∀ a : RBig, a.denom.get ≠ 0 →
      a.neg.denom.get ≠ 0 ∧ a.abs.denom.get ≠ 0 ∧ a.reduce.denom.get ≠ 0 ∧
      a.reduced.denom.get ≠ 0 ∧ a.trunc.denom.get ≠ 0 ∧ a.fract.denom.get ≠ 0 ∧
      (∀ e : Nat, (a.unsigned_pow e).denom.get ≠ 0)) ∧
    (∀ (a : RBig) (e : Int), a.denom.get ≠ 0 → (0 ≤ e ∨ a.numer ≠ 0) →
      (a.signed_pow e).denom.get ≠ 0) ∧
    (∀ a : RBig, a.numer ≠ 0 → a.recip.denom.get ≠ 0) ∧
    (∀ a r : RBig, a.checked_recip = some r → r.denom.get ≠ 0) ∧
    (∀ (s : Sign) (n : Nat) (d : NonZeroUBig), d.val ≠ 0 → (RBig.new s n d).denom.get ≠ 0) ∧
    (∀ (n d : Int) (r : RBig), RBig.from_numer_denom n d = some r → r.denom.get ≠ 0) ∧
    (∀ (n : Int) (d : NonZeroUBig), d.val ≠ 0 →
      (RBig.from_numer_unsigned_denom n d).denom.get ≠ 0) ∧
    (∀ n : Nat, (RBig.ofUBig n).denom.get ≠ 0) ∧
    (∀ n : Int, (RBig.ofIBig n).denom.get ≠ 0) ∧
    NonZeroUBig.one.val ≠ 0 ∧
    (∀ (u : Nat) (x : NonZeroUBig), NonZeroUBig.new u = some x → x.val ≠ 0) ∧
    (∀ x y : NonZeroUBig, x.val ≠ 0 → y.val ≠ 0 → (x.mul y).val ≠ 0) ∧
    (∀ (x : NonZeroUBig) (r : Nat), x.val ≠ 0 → r ≠ 0 → r ∣ x.val → (x.div r).val ≠ 0) ∧
    (∀ x y : NonZeroUBig, x.val ≠ 0 → (x.add y).val ≠ 0) ∧
    (∀ (x : NonZeroUBig) (e : Nat), x.val ≠ 0 → (x.pow e).val ≠ 0) := by
  refine ⟨?_, ?_, ?_, ?_, ?_, ?_, ?_, ?_, ?_, ?_, ?_, ?_, ?_, ?_, ?_, ?_, ?_⟩
  · intro a b ha hb
    refine ⟨?_, ?_, ?_, ?_, ?_, ?_⟩
    · rw [add_denom]
      exact Nat.mul_ne_zero ha hb
    · rw [sub_denom]
      exact Nat.mul_ne_zero ha hb
    · rw [mul_denom]
      exact Nat.mul_ne_zero ha hb
    · rw [add_assign_denom]
      exact Nat.mul_ne_zero ha hb
    · have h : (a.sub_assign b).denom.get = (a.add_assign b.neg).denom.get := rfl
      rw [h, add_assign_denom]
      exact Nat.mul_ne_zero ha hb
    · have h : (a.mul_assign b).denom.get = a.denom.get * b.denom.get := rfl
      rw [h]
      exact Nat.mul_ne_zero ha hb
  · intro a b ha hn
    refine ⟨?_, ?_⟩
    · rw [div_denom]
      exact Nat.mul_ne_zero ha hn
    · have h : (a.div_assign b).denom.get = a.denom.get * b.numer := rfl
      rw [h]
      exact Nat.mul_ne_zero ha hn
  · intro a ha
    have hred : a.reduce.denom.get = a.denom.get / Nat.gcd a.numer a.denom.get := by
      unfold RBig.reduce NonZeroUBig.div NonZeroUBig.get at *
      rw [gcd_eq_nat_gcd _ _ ha]
    refine ⟨ha, ha, ?_, ?_, ?_, ha, ?_⟩
    · rw [hred]
      exact nonzero_div_of_dvd _ _ ha (Nat.gcd_dvd_right _ _)
    · have h : a.reduced = a.reduce := rfl
      rw [h, hred]
      exact nonzero_div_of_dvd _ _ ha (Nat.gcd_dvd_right _ _)
    · have h : a.trunc.denom.get = 1 := rfl
      rw [h]
      exact one_ne_zero
    · intro e
      have h : (a.unsigned_pow e).denom.get = a.denom.get ^ e := rfl
      rw [h]
      exact pow_ne_zero e ha
  · intro a e ha hcond
    unfold RBig.signed_pow
    dsimp only
    split_ifs with h
    · have hc : (a.unsigned_pow e.natAbs).denom.get = a.denom.get ^ e.natAbs := rfl
      rw [hc]
      exact pow_ne_zero _ ha
    · have hc : (a.unsigned_pow e.natAbs).recip.denom.get = a.numer ^ e.natAbs := rfl
      rw [hc]
      rcases hcond with hle | hnum
      · have he : e = 0 := le_antisymm (not_lt.mp h) hle
        rw [he]
        simp
      · exact pow_ne_zero _ hnum
  · intro a hn
    exact hn
  · intro a r h
    unfold RBig.checked_recip at h
    split_ifs at h with h0
    cases h
    exact h0
  · intro s n d hd
    exact hd
  · intro n d r h
    unfold RBig.from_numer_denom at h
    rcases Option.map_eq_some'.mp h with ⟨x, hx, hr⟩
    rw [← hr]
    exact nonZeroUBig_new_some _ _ hx
  · intro n d hd
    exact hd
  · intro n
    exact one_ne_zero
  · intro n
    exact one_ne_zero
  · exact one_ne_zero
  · exact nonZeroUBig_new_some
  · intro x y hx hy
    exact Nat.mul_ne_zero hx hy
  · intro x r hx hr hdvd
    exact nonzero_div_of_dvd _ _ hx hdvd
  · intro x y hx
    unfold NonZeroUBig.add
    dsimp only
    omega
  · intro x e hx
    exact pow_ne_zero e hx

/-- C9 witness: the addition conjunct applied to `1/2` and `-1/3`. -/
theorem c9_denom_invariant_witness :
    (RBig.add ⟨Sign.Positive, 1, ⟨2⟩⟩ ⟨Sign.Negative, 1, ⟨3⟩⟩).denom.get ≠ 0 :=
  (c9_denom_invariant.1 ⟨Sign.Positive, 1, ⟨2⟩⟩ ⟨Sign.Negative, 1, ⟨3⟩⟩
    (by decide) (by decide)).1

end RBigSpec
